import Mathlib

/-!
# A shallow embedding of the steam-crypto library

This file embeds the cryptographic surface of the `@steamlab/steam-crypto`
package (`src/index.ts`): the CRC32 checksum and its lookup table, the
AES-256-CBC payload cipher with its HMAC-derived IV, session-key generation,
and RSA password encryption, and proves the library-level properties stated
in the specification.

Bytes are modelled as `List Nat`, each element standing for one octet; all
32-bit JavaScript arithmetic is carried out on `Nat` with explicit masking,
mirroring the unsigned view of the TypeScript code bit for bit.

The AES-256 block cipher, HMAC-SHA1 and the RSA-OAEP core are primitives of
`node:crypto`, not code of this repository; they enter the embedding as
explicit function parameters (`E`, `D`, `hmac`, `rsaSys`), and the theorems
assume exactly the contracts the library documents for them (block length
preservation, the decryption/encryption inverse law, a 20-byte digest).
Everything the repository itself computes — framing, padding, chaining, the
lookup table, hex decoding, the PKCS#1 layout — is defined concretely and
executably below.
-/

namespace SteamCrypto

/-- A byte string: one `Nat` per octet. -/
abbrev Bytes := List Nat

/-! ## CRC32 (`crc32Table`, `SteamCrypto.crc32` in `src/index.ts`) -/

/-- One round of the table generator:
`i = i & 1 ? 0xedb88320 ^ (i >>> 1) : i >>> 1`. -/
def crc32TableStep (i : Nat) : Nat :=
  if i % 2 = 1 then 0xedb88320 ^^^ (i / 2) else i / 2

/-- `n` rounds of `crc32TableStep`; the table applies 8 of them. -/
def crc32TableIter : Nat → Nat → Nat
  | 0, i => i
  | n + 1, i => crc32TableIter n (crc32TableStep i)

/-- The 256-entry reflected CRC32 lookup table for polynomial `0xEDB88320`:
`new Uint32Array(256).map((_, i) => { for 8 rounds ... })`. -/
def crc32Table : List Nat :=
  (List.range 256).map (crc32TableIter 8)

/-- One step of the running CRC:
`crc = crc32Table[(crc ^ buffer[i]) & 0xff] ^ (crc >>> 8)`.
On the unsigned 32-bit view, `& 0xff` is `% 256` and `>>> 8` is `/ 256`. -/
def crc32Update (crc b : Nat) : Nat :=
  (crc32Table.getD ((crc ^^^ b) % 256) 0) ^^^ (crc / 256)

/-- `SteamCrypto.crc32`: seed `~0` (unsigned `0xFFFFFFFF`), fold the table
update over the buffer, and return `~crc >>> 0`, i.e. the unsigned bitwise
complement, which is XOR with `0xFFFFFFFF`. -/
def crc32 (buffer : Bytes) : Nat :=
  0xffffffff ^^^ buffer.foldl crc32Update 0xffffffff

/-- The ASCII/Latin-1 bytes of a string, as `Buffer.from(s, "ascii")`
produces them for pure-ASCII text. -/
def asciiBytes (s : String) : Bytes :=
  s.data.map Char.toNat


/-! ## Block-cipher plumbing (`node:crypto` cipher objects)

`createCipheriv("aes-256-ecb"/"aes-256-cbc", ...)` validates the key and IV
lengths, processes full 16-byte blocks, and on `final()` enforces that the
input was block-aligned (with `setAutoPadding(false)`) or applies/strips
PKCS#7 padding (with auto-padding on). The AES-256 block permutation itself
is abstracted as `E` (encrypt) / `D` (decrypt). -/

/-- Pointwise XOR of two byte strings (`zipWith`, as CBC chaining does). -/
def xorBytes (a b : Bytes) : Bytes :=
  List.zipWith (fun x y => x ^^^ y) a b

/-- Split `d` into `n` consecutive 16-byte blocks. -/
def blocksAux : Nat → Bytes → List Bytes
  | 0, _ => []
  | n + 1, d => d.take 16 :: blocksAux n (d.drop 16)

/-- The 16-byte blocks of a block-aligned byte string. -/
def toBlocks (d : Bytes) : List Bytes :=
  blocksAux (d.length / 16) d

/-- PKCS#7 padding for 16-byte blocks: append `16 - len % 16` copies of that
count (a full extra block when the input is already aligned). -/
def pkcs7pad (d : Bytes) : Bytes :=
  d ++ List.replicate (16 - d.length % 16) (16 - d.length % 16)

/-- PKCS#7 unpadding as OpenSSL checks it on `final()`: the last byte `m`
must satisfy `1 ≤ m ≤ 16`, and the last `m` bytes must all equal `m`. -/
def pkcs7unpad (d : Bytes) : Option Bytes :=
  match d.getLast? with
  | none => none
  | some m =>
    if m = 0 ∨ 16 < m ∨ d.length < m then none
    else if d.drop (d.length - m) = List.replicate m m then
      some (d.take (d.length - m))
    else none

/-- CBC encryption over a block list: `cᵢ = E(key, pᵢ ⊕ cᵢ₋₁)`, seeded with
the IV as `c₀`. -/
def cbcEncBlocks (E : Bytes → Bytes → Bytes) (key : Bytes) :
    Bytes → List Bytes → List Bytes
  | _, [] => []
  | prev, b :: bs =>
    E key (xorBytes b prev) :: cbcEncBlocks E key (E key (xorBytes b prev)) bs

/-- CBC decryption over a block list: `pᵢ = D(key, cᵢ) ⊕ cᵢ₋₁`. -/
def cbcDecBlocks (D : Bytes → Bytes → Bytes) (key : Bytes) :
    Bytes → List Bytes → List Bytes
  | _, [] => []
  | prev, c :: cs => xorBytes (D key c) prev :: cbcDecBlocks D key c cs

/-- ECB over a block-aligned byte string: each block through `E`. -/
def ecbEncRaw (E : Bytes → Bytes → Bytes) (key d : Bytes) : Bytes :=
  ((toBlocks d).map (E key)).flatten

/-- ECB decryption over a block-aligned byte string. -/
def ecbDecRaw (D : Bytes → Bytes → Bytes) (key d : Bytes) : Bytes :=
  ((toBlocks d).map (D key)).flatten

/-- The failures `node:crypto` raises on the paths the library exercises. -/
inductive CryptoError where
  /-- `createCipheriv`/`createDecipheriv` rejects a key that is not 32 bytes
  for `aes-256-*`. -/
  | invalidKeyLength : CryptoError
  /-- `createCipheriv`/`createDecipheriv` rejects an IV that is not 16 bytes
  for `aes-256-cbc`. -/
  | invalidIVLength : CryptoError
  /-- `final()` rejects input that is not block-aligned (or an empty
  ciphertext when unpadding). -/
  | wrongFinalBlockLength : CryptoError
  /-- `final()` rejects invalid PKCS#7 padding on decryption. -/
  | badDecrypt : CryptoError
  /-- `publicEncrypt` rejects a message too large for the key/padding. -/
  | dataTooLargeForKeySize : CryptoError
  /-- `createPublicKey` rejects unusable key material. -/
  | invalidKeyMaterial : CryptoError
  /-- `rsa_ossl_public_encrypt` rejects a modulus above
  `OPENSSL_RSA_MAX_MODULUS_BITS` (16384) bits. -/
  | modulusTooLarge : CryptoError
  /-- `rsa_ossl_public_encrypt` rejects a public exponent that is not smaller
  than the modulus, and, for moduli above `OPENSSL_RSA_SMALL_MODULUS_BITS`
  (3072) bits, one above `OPENSSL_RSA_MAX_PUBEXP_BITS` (64) bits. -/
  | badEValue : CryptoError
deriving Repr, DecidableEq

/-! ## PayloadCipher (`SteamCrypto.encrypt` / `decrypt` / `generateHmacIV`) -/

/-- `SteamCrypto.generateHmacIV`: `hmacSecret = key[0:16]`; the digest is
HMAC-SHA1 over `random(3) || data`; the IV is `digest[0:13] || random`.
`hmac` abstracts `node:crypto`'s HMAC-SHA1, `r` the 3 random bytes. -/
def generateHmacIV (hmac : Bytes → Bytes → Bytes) (data key r : Bytes) : Bytes :=
  ((hmac (key.take 16) (r ++ data)).take 13) ++ r

/-- `SteamCrypto.encrypt`: derive the HMAC IV, encrypt it with AES-256-ECB
(no padding), encrypt the data with AES-256-CBC (PKCS#7 padding) under the
derived IV, and return `encryptedIV || encryptedData`.
`E` abstracts the AES-256 block encryption, `hmac` HMAC-SHA1, and `r` the 3
random bytes drawn inside `generateHmacIV`. -/
def encrypt (E : Bytes → Bytes → Bytes) (hmac : Bytes → Bytes → Bytes)
    (data key r : Bytes) : Except CryptoError Bytes :=
  let IV := generateHmacIV hmac data key r
  if key.length ≠ 32 then .error .invalidKeyLength
  else if IV.length % 16 ≠ 0 then .error .wrongFinalBlockLength
  else if IV.length ≠ 16 then .error .invalidIVLength
  else
    let encryptedIV := ecbEncRaw E key IV
    let encryptedData := (cbcEncBlocks E key IV (toBlocks (pkcs7pad data))).flatten
    .ok (encryptedIV ++ encryptedData)

/-- `SteamCrypto.decrypt`: recover the IV by AES-256-ECB-decrypting
`data[0:16]` (no padding), then AES-256-CBC-decrypt the rest under the
recovered IV and strip the PKCS#7 padding. `D` abstracts the AES-256 block
decryption. -/
def decrypt (D : Bytes → Bytes → Bytes) (data key : Bytes) : Except CryptoError Bytes :=
  if key.length ≠ 32 then .error .invalidKeyLength
  else if (data.take 16).length % 16 ≠ 0 then .error .wrongFinalBlockLength
  else
    let IV := ecbDecRaw D key (data.take 16)
    if IV.length ≠ 16 then .error .invalidIVLength
    else
      let ct := data.drop 16
      if ct.length % 16 ≠ 0 ∨ ct.length = 0 then .error .wrongFinalBlockLength
      else
        match pkcs7unpad ((cbcDecBlocks D key IV (toBlocks ct)).flatten) with
        | some plain => .ok plain
        | none => .error .badDecrypt

/-! ## KeyEncapsulation (`SteamCrypto.genSessionKey`) -/

/-- The result of `genSessionKey`: the raw 32-byte session key and its
RSA encapsulation under Steam's fixed public key. -/
structure SessionKey where
  plain : Bytes
  encrypted : Bytes
deriving Repr, DecidableEq

/-- Modelled from the spec: `Crypto.publicEncrypt(SteamPublicKey, msg)` with
no explicit padding option uses the host library's default RSA-OAEP(SHA-1)
padding under the fixed 1024-bit key, so it accepts messages of at most
`128 - 2*20 - 2 = 86` bytes and produces one 128-byte modulus-sized block;
`rsaSys` abstracts the OAEP-plus-modular-exponentiation core. -/
def publicEncryptDefault (rsaSys : Bytes → Bytes) (msg : Bytes) :
    Except CryptoError Bytes :=
  if msg.length ≤ 86 then .ok (rsaSys msg) else .error .dataTooLargeForKeySize

/-- `SteamCrypto.genSessionKey`: draw 32 random bytes (`rand32`), RSA-encrypt
`rand32 || nonce` under the fixed Steam public key, and return both. -/
def genSessionKey (rsaSys : Bytes → Bytes) (rand32 nonce : Bytes) :
    Except CryptoError SessionKey :=
  match publicEncryptDefault rsaSys (rand32 ++ nonce) with
  | .ok enc => .ok { plain := rand32, encrypted := enc }
  | .error e => .error e

/-! ## CredentialEncryptor (`SteamCrypto.rsaEncrypt`)

`rsaEncrypt` decodes the modulus/exponent hex strings with
`Buffer.from(_, "hex")`, builds a JWK public key, and RSA-encrypts the
UTF-8 password bytes with explicit PKCS#1 v1.5 padding, returning base64.
Unlike the block cipher, every arithmetic step here is concrete. -/

/-- The value of a hexadecimal digit, if the character is one. -/
def hexDigitVal (c : Char) : Option Nat :=
  if 48 ≤ c.toNat ∧ c.toNat ≤ 57 then some (c.toNat - 48)
  else if 97 ≤ c.toNat ∧ c.toNat ≤ 102 then some (c.toNat - 87)
  else if 65 ≤ c.toNat ∧ c.toNat ≤ 70 then some (c.toNat - 55)
  else none

/-- `Buffer.from(s, "hex")` on a character list: decode hex pairs and stop
silently at the first pair that is not two hex digits (an odd trailing digit
is likewise dropped). Node never throws here. -/
def nodeHexDecodeAux : List Char → Bytes
  | c1 :: c2 :: rest =>
    match hexDigitVal c1, hexDigitVal c2 with
    | some hi, some lo => (hi * 16 + lo) :: nodeHexDecodeAux rest
    | _, _ => []
  | _ => []

/-- `Buffer.from(s, "hex")` on a string. -/
def nodeHexDecode (s : String) : Bytes :=
  nodeHexDecodeAux s.data

/-- The UTF-8 bytes of one scalar value, as `Buffer.from(password)`
encodes them. -/
def utf8EncodeCharNat (n : Nat) : Bytes :=
  if n < 0x80 then [n]
  else if n < 0x800 then [0xc0 + n / 64, 0x80 + n % 64]
  else if n < 0x10000 then
    [0xe0 + n / 4096, 0x80 + n / 64 % 64, 0x80 + n % 64]
  else
    [0xf0 + n / 262144, 0x80 + n / 4096 % 64, 0x80 + n / 64 % 64, 0x80 + n % 64]

/-- `Buffer.from(s)`: the UTF-8 bytes of a string. -/
def utf8Bytes (s : String) : Bytes :=
  (s.data.map (fun c => utf8EncodeCharNat c.toNat)).flatten

/-- A big-endian byte string as a natural number. -/
def bytesToNat (bs : Bytes) : Nat :=
  bs.foldl (fun acc b => acc * 256 + b) 0

/-- Fuel-driven core of `natBytesLen`; `fuel ≥ n` is always enough. -/
def natBytesLenAux : Nat → Nat → Nat
  | 0, _ => 0
  | fuel + 1, n => if n = 0 then 0 else natBytesLenAux fuel (n / 256) + 1

/-- The minimal big-endian byte length of a natural number (`BN_num_bytes`,
which is how OpenSSL sizes an RSA modulus). -/
def natBytesLen (n : Nat) : Nat :=
  natBytesLenAux n n

/-- The low `k` bytes of a natural number, big-endian. -/
def natToBytes : Nat → Nat → Bytes
  | 0, _ => []
  | k + 1, n => natToBytes k (n / 256) ++ [n % 256]

/-- Fuel-driven core of `natBitsLen`; `fuel ≥ n` is always enough. -/
def natBitsLenAux : Nat → Nat → Nat
  | 0, _ => 0
  | fuel + 1, n => if n = 0 then 0 else natBitsLenAux fuel (n / 2) + 1

/-- The bit length of a natural number (`BN_num_bits`; 0 for 0). -/
def natBitsLen (n : Nat) : Nat :=
  natBitsLenAux n n

/-- Fuel-driven modular exponentiation by repeated squaring; the exponent
halves each step, so `fuel ≥ e` is always enough. -/
def powModAux : Nat → Nat → Nat → Nat → Nat
  | 0, _, _, n => 1 % n
  | fuel + 1, b, e, n =>
    if e = 0 then 1 % n
    else
      let h := powModAux fuel b (e / 2) n
      if e % 2 = 1 then h * h % n * b % n else h * h % n

/-- Modular exponentiation (`m^e mod n`). -/
def powMod (b e n : Nat) : Nat :=
  powModAux e b e n

/-- The base64 alphabet. -/
def base64Char (n : Nat) : Char :=
  "ABCDEFGHIJKLMNOPQRSTUVWXYZabcdefghijklmnopqrstuvwxyz0123456789+/".data.getD n '='

/-- `Buffer.toString("base64")`: standard base64 with `=` padding. -/
def base64Encode : Bytes → List Char
  | b1 :: b2 :: b3 :: rest =>
    let w := b1 % 256 * 65536 + b2 % 256 * 256 + b3 % 256
    base64Char (w / 262144) :: base64Char (w / 4096 % 64) ::
      base64Char (w / 64 % 64) :: base64Char (w % 64) :: base64Encode rest
  | [b1, b2] =>
    let w := b1 % 256 * 65536 + b2 % 256 * 256
    [base64Char (w / 262144), base64Char (w / 4096 % 64), base64Char (w / 64 % 64), '=']
  | [b1] =>
    let w := b1 % 256 * 65536
    [base64Char (w / 262144), base64Char (w / 4096 % 64), '=', '=']
  | [] => []

/-- `SteamCrypto.rsaEncrypt`: decode the modulus and exponent leniently from
hex, build the public key (rejecting empty key material, as `createPublicKey`
does), and RSA-encrypt the UTF-8 password bytes with explicit PKCS#1 v1.5
padding — `EM = 00 02 PS 00 M`, `c = EM^e mod n` — sized to the modulus byte
length; the result is returned base64-encoded. `padPS` models the nonzero
random padding bytes the library draws (its length is `k - 3 - |M|`).

Before padding, OpenSSL's `rsa_ossl_public_encrypt` (reached through Node's
`publicEncrypt` with `RSA_PKCS1_PADDING`) performs its key sanity checks, in
this order: the modulus must be at most `OPENSSL_RSA_MAX_MODULUS_BITS`
(16384) bits, the exponent must be strictly smaller than the modulus
(`BN_ucmp(n, e) <= 0` → `RSA_R_BAD_E_VALUE`), and a modulus above
`OPENSSL_RSA_SMALL_MODULUS_BITS` (3072) bits requires an exponent of at most
`OPENSSL_RSA_MAX_PUBEXP_BITS` (64) bits; `BN_num_bits` is `natBitsLen`. -/
def rsaEncrypt (padPS : Bytes) (password publicKeyMod publicKeyExp : String) :
    Except CryptoError String :=
  let nBytes := nodeHexDecode publicKeyMod
  let eBytes := nodeHexDecode publicKeyExp
  if nBytes = [] ∨ eBytes = [] then .error .invalidKeyMaterial
  else
    let n := bytesToNat nBytes
    let e := bytesToNat eBytes
    if 16384 < natBitsLen n then .error .modulusTooLarge
    else if n ≤ e then .error .badEValue
    else if 3072 < natBitsLen n ∧ 64 < natBitsLen e then .error .badEValue
    else
      let k := natBytesLen n
      let msg := utf8Bytes password
      if k < msg.length + 11 then .error .dataTooLargeForKeySize
      else
        let em := [0, 2] ++ padPS ++ [0] ++ msg
        .ok (String.mk (base64Encode (natToBytes k (powMod (bytesToNat em) e n))))

/-! ## Byte-string and block lemmas -/

theorem xorBytes_length (a b : Bytes) :
    (xorBytes a b).length = min a.length b.length := by
  simp [xorBytes]

theorem xorBytes_cancel : ∀ (a p : Bytes), a.length = p.length →
    xorBytes (xorBytes a p) p = a
  | [], [], _ => rfl
  | x :: a, y :: p, h => by
    simp only [xorBytes, List.zipWith_cons_cons, List.cons.injEq]
    exact ⟨Nat.xor_cancel_right y x,
      xorBytes_cancel a p (by simpa using h)⟩

theorem pkcs7pad_length (d : Bytes) :
    (pkcs7pad d).length = d.length + (16 - d.length % 16) := by
  simp [pkcs7pad]

theorem pkcs7pad_length_mod (d : Bytes) : (pkcs7pad d).length % 16 = 0 := by
  rw [pkcs7pad_length]
  omega

theorem pkcs7pad_length_pos (d : Bytes) : 0 < (pkcs7pad d).length := by
  rw [pkcs7pad_length]
  omega

theorem pkcs7unpad_pad (d : Bytes) : pkcs7unpad (pkcs7pad d) = some d := by
  have hm : 0 < 16 - d.length % 16 ∧ 16 - d.length % 16 ≤ 16 := by omega
  set m := 16 - d.length % 16 with hmdef
  have hrep : List.replicate m m = List.replicate (m - 1) m ++ [m] := by
    obtain ⟨k, hk⟩ : ∃ k, m = k + 1 := ⟨m - 1, by omega⟩
    rw [hk]
    simpa using List.replicate_succ' k (k + 1)
  have hlast : (pkcs7pad d).getLast? = some m := by
    rw [pkcs7pad, ← hmdef, hrep, ← List.append_assoc]
    exact List.getLast?_concat _
  have hlen : (pkcs7pad d).length = d.length + m := by
    rw [pkcs7pad_length, ← hmdef]
  rw [pkcs7unpad, hlast]
  have hcond : ¬(m = 0 ∨ 16 < m ∨ (pkcs7pad d).length < m) := by
    rw [hlen]; omega
  simp only [hcond, if_false]
  have hsub : (pkcs7pad d).length - m = d.length := by omega
  have hdrop : (pkcs7pad d).drop ((pkcs7pad d).length - m) = List.replicate m m := by
    rw [hsub, pkcs7pad, ← hmdef]
    have := List.drop_left d (List.replicate m m)
    exact this
  have htake : (pkcs7pad d).take ((pkcs7pad d).length - m) = d := by
    rw [hsub, pkcs7pad, ← hmdef]
    exact List.take_left d (List.replicate m m)
  rw [hdrop, htake, if_pos rfl]

theorem blocksAux_flatten : ∀ (n : Nat) (d : Bytes), d.length = 16 * n →
    (blocksAux n d).flatten = d
  | 0, d, h => by
    have : d = [] := List.eq_nil_of_length_eq_zero (by omega)
    simp [this, blocksAux]
  | n + 1, d, h => by
    simp only [blocksAux, List.flatten_cons]
    rw [blocksAux_flatten n (d.drop 16) (by simp; omega)]
    exact List.take_append_drop 16 d

theorem toBlocks_flatten (d : Bytes) (h : d.length % 16 = 0) :
    (toBlocks d).flatten = d := by
  rw [toBlocks]
  exact blocksAux_flatten _ d (by omega)

theorem blocksAux_length : ∀ (n : Nat) (d : Bytes),
    (blocksAux n d).length = n
  | 0, _ => rfl
  | n + 1, d => by simp [blocksAux, blocksAux_length n]

theorem toBlocks_length (d : Bytes) : (toBlocks d).length = d.length / 16 :=
  blocksAux_length _ d

theorem blocksAux_all16 : ∀ (n : Nat) (d : Bytes), d.length = 16 * n →
    ∀ b ∈ blocksAux n d, b.length = 16
  | 0, _, _ => by simp [blocksAux]
  | n + 1, d, h => by
    simp only [blocksAux, List.mem_cons]
    rintro b (rfl | hb)
    · simp; omega
    · exact blocksAux_all16 n (d.drop 16) (by simp; omega) b hb

theorem toBlocks_all16 (d : Bytes) (h : d.length % 16 = 0) :
    ∀ b ∈ toBlocks d, b.length = 16 := by
  rw [toBlocks]
  exact blocksAux_all16 _ d (by omega)

theorem toBlocks_single (d : Bytes) (h : d.length = 16) : toBlocks d = [d] := by
  rw [toBlocks, h]
  simp only [blocksAux]
  rw [List.take_of_length_le (by omega)]

theorem toBlocks_append16 (a b : Bytes) (ha : a.length = 16)
    (hb : b.length % 16 = 0) : toBlocks (a ++ b) = a :: toBlocks b := by
  have hlen : (a ++ b).length / 16 = b.length / 16 + 1 := by
    simp only [List.length_append, ha]
    omega
  rw [toBlocks, hlen]
  simp only [blocksAux]
  rw [← ha, List.take_left a b, List.drop_left a b, ha, toBlocks]

theorem flatten_all16_length (bs : List Bytes)
    (h : ∀ b ∈ bs, b.length = 16) : bs.flatten.length = 16 * bs.length := by
  induction bs with
  | nil => rfl
  | cons b bs ih =>
    simp only [List.flatten_cons, List.length_append, List.length_cons]
    rw [h b (by simp), ih (fun x hx => h x (by simp [hx]))]
    ring

theorem toBlocks_flatten_blocks (bs : List Bytes)
    (h : ∀ b ∈ bs, b.length = 16) : toBlocks bs.flatten = bs := by
  induction bs with
  | nil => rfl
  | cons b bs ih =>
    rw [List.flatten_cons,
      toBlocks_append16 b bs.flatten (h b (by simp))
        (by rw [flatten_all16_length bs (fun x hx => h x (by simp [hx]))]; omega),
      ih (fun x hx => h x (by simp [hx]))]

theorem ecbEncRaw_single (E : Bytes → Bytes → Bytes) (key d : Bytes)
    (h : d.length = 16) : ecbEncRaw E key d = E key d := by
  rw [ecbEncRaw, toBlocks_single d h]
  simp

theorem ecbDecRaw_single (D : Bytes → Bytes → Bytes) (key d : Bytes)
    (h : d.length = 16) : ecbDecRaw D key d = D key d := by
  rw [ecbDecRaw, toBlocks_single d h]
  simp

/-! ## CBC lemmas -/

theorem cbcEncBlocks_all16 (E : Bytes → Bytes → Bytes) (key : Bytes)
    (hE : ∀ k b, b.length = 16 → (E k b).length = 16) :
    ∀ (bs : List Bytes) (prev : Bytes), (∀ b ∈ bs, b.length = 16) →
      prev.length = 16 → ∀ c ∈ cbcEncBlocks E key prev bs, c.length = 16
  | [], _, _, _ => by simp [cbcEncBlocks]
  | b :: bs, prev, hbs, hprev => by
    have hxor : (xorBytes b prev).length = 16 := by
      rw [xorBytes_length, hbs b (by simp), hprev]
      omega
    have hEb : (E key (xorBytes b prev)).length = 16 := hE key _ hxor
    simp only [cbcEncBlocks, List.mem_cons]
    rintro c (rfl | hc)
    · exact hEb
    · exact cbcEncBlocks_all16 E key hE bs (E key (xorBytes b prev))
        (fun x hx => hbs x (by simp [hx])) hEb c hc

theorem cbcEncBlocks_count (E : Bytes → Bytes → Bytes) (key : Bytes) :
    ∀ (bs : List Bytes) (prev : Bytes),
      (cbcEncBlocks E key prev bs).length = bs.length
  | [], _ => rfl
  | _ :: bs, _ => by
    simp [cbcEncBlocks, cbcEncBlocks_count E key bs]

theorem cbcDec_cbcEnc (E D : Bytes → Bytes → Bytes) (key : Bytes)
    (hE : ∀ k b, b.length = 16 → (E k b).length = 16)
    (hD : ∀ k b, b.length = 16 → D k (E k b) = b) :
    ∀ (bs : List Bytes) (prev : Bytes), (∀ b ∈ bs, b.length = 16) →
      prev.length = 16 →
      cbcDecBlocks D key prev (cbcEncBlocks E key prev bs) = bs
  | [], _, _, _ => rfl
  | b :: bs, prev, hbs, hprev => by
    have hxor : (xorBytes b prev).length = 16 := by
      rw [xorBytes_length, hbs b (by simp), hprev]
      omega
    simp only [cbcEncBlocks, cbcDecBlocks, List.cons.injEq]
    refine ⟨?_, ?_⟩
    · rw [hD key _ hxor, xorBytes_cancel b prev (by rw [hbs b (by simp), hprev])]
    · exact cbcDec_cbcEnc E D key hE hD bs (E key (xorBytes b prev))
        (fun x hx => hbs x (by simp [hx])) (hE key _ hxor)

/-! ## Characterizations of `encrypt` and `decrypt` -/

theorem generateHmacIV_length (hmac : Bytes → Bytes → Bytes)
    (data key r : Bytes) (hd : (hmac (key.take 16) (r ++ data)).length = 20)
    (hr : r.length = 3) : (generateHmacIV hmac data key r).length = 16 := by
  simp [generateHmacIV, hd, hr]

theorem encrypt_eq_ok (E hmac : Bytes → Bytes → Bytes) (data key r : Bytes)
    (hkey : key.length = 32)
    (hIV : (generateHmacIV hmac data key r).length = 16) :
    encrypt E hmac data key r =
      .ok (ecbEncRaw E key (generateHmacIV hmac data key r) ++
        (cbcEncBlocks E key (generateHmacIV hmac data key r)
          (toBlocks (pkcs7pad data))).flatten) := by
  rw [encrypt]
  simp [hkey, hIV]

/-- C1: for every plaintext byte sequence `p` (the empty sequence and
sequences of 10,000 bytes and more included), every 32-byte key `k`, and
every value `r` of the 3 random bytes drawn during encryption,
`decrypt(encrypt(p, k), k)` returns exactly `p`, assuming only the AES-256
block-cipher inverse contract and the 20-byte HMAC-SHA1 digest length of
`node:crypto`. -/
theorem encrypt_then_decrypt_roundtrip
    (E D hmac : Bytes → Bytes → Bytes) (data key r : Bytes)
    (hkey : key.length = 32) (hr : r.length = 3)
    (hhmac : ∀ k m, (hmac k m).length = 20)
    (hE : ∀ k b, b.length = 16 → (E k b).length = 16)
    (hD : ∀ k b, b.length = 16 → D k (E k b) = b) :
    (encrypt E hmac data key r).bind (fun frame => decrypt D frame key) =
      .ok data := by
  have hIV : (generateHmacIV hmac data key r).length = 16 :=
    generateHmacIV_length hmac data key r (hhmac _ _) hr
  set IV := generateHmacIV hmac data key r with hIVdef
  rw [encrypt_eq_ok E hmac data key r hkey hIV]
  set pb := toBlocks (pkcs7pad data) with hpb
  have hpb16 : ∀ b ∈ pb, b.length = 16 :=
    toBlocks_all16 _ (pkcs7pad_length_mod data)
  set cb := cbcEncBlocks E key IV pb with hcb
  have hcb16 : ∀ c ∈ cb, c.length = 16 :=
    cbcEncBlocks_all16 E key hE pb IV hpb16 hIV
  have heIV : (ecbEncRaw E key IV).length = 16 := by
    rw [ecbEncRaw_single E key IV hIV]
    exact hE key IV hIV
  have hctlen : cb.flatten.length = 16 * cb.length :=
    flatten_all16_length cb hcb16
  have hcbpos : 0 < cb.length := by
    rw [hcb, cbcEncBlocks_count, hpb, toBlocks_length]
    have h1 := pkcs7pad_length_pos data
    have h2 := pkcs7pad_length_mod data
    omega
  have htake : (ecbEncRaw E key IV ++ cb.flatten).take 16 = ecbEncRaw E key IV := by
    rw [← heIV]
    exact List.take_left _ _
  have hdrop : (ecbEncRaw E key IV ++ cb.flatten).drop 16 = cb.flatten := by
    rw [← heIV]
    exact List.drop_left _ _
  have hrec : ecbDecRaw D key (ecbEncRaw E key IV) = IV := by
    rw [ecbEncRaw_single E key IV hIV, ecbDecRaw_single D key _ (hE key IV hIV)]
    exact hD key IV hIV
  show decrypt D (ecbEncRaw E key IV ++ cb.flatten) key = .ok data
  rw [decrypt]
  simp only [htake, hdrop, hrec, heIV, hkey, hIV]
  rw [toBlocks_flatten_blocks cb hcb16, hcb,
    cbcDec_cbcEnc E D key hE hD pb IV hpb16 hIV, hpb,
    toBlocks_flatten _ (pkcs7pad_length_mod data), pkcs7unpad_pad data]
  have hmod : cb.flatten.length % 16 = 0 := by
    rw [hctlen]
    omega
  have hne : ¬cb.flatten.length = 0 := by
    rw [hctlen]
    omega
  simp [hmod, hne]
  refine ⟨?_, ?_⟩
  · rw [← List.length_flatten]
    exact hmod
  · rw [← List.length_flatten]
    exact hne

/-- Witness for C1 at a concrete input: the identity block cipher satisfies
the AES contract, a constant digest satisfies the HMAC-SHA1 contract, and
the round-trip returns the plaintext `[1, 2, 3]`. -/
theorem encrypt_then_decrypt_roundtrip_witness :
    (encrypt (fun _ b => b) (fun _ _ => List.replicate 20 0) [1, 2, 3]
        (List.replicate 32 0) [7, 8, 9]).bind
      (fun frame => decrypt (fun _ b => b) frame (List.replicate 32 0)) =
      .ok [1, 2, 3] :=
  encrypt_then_decrypt_roundtrip (fun _ b => b) (fun _ b => b)
    (fun _ _ => List.replicate 20 0) [1, 2, 3] (List.replicate 32 0) [7, 8, 9]
    (by decide) (by decide) (fun _ _ => rfl) (fun _ _ h => h)
    (fun _ _ _ => rfl)

/-- C3: for every plaintext `p` and 32-byte key, `encrypt` returns exactly 16
bytes of encrypted IV followed by the AES-CBC ciphertext; the ciphertext is
`N * 16` bytes with `N ≥ 1`, and its length is the plaintext length rounded
up to the next 16-byte boundary (the least multiple of 16 strictly above the
plaintext length, consistent with `N ≥ 1` on empty and block-aligned input). -/
theorem encrypt_frame_layout (E hmac : Bytes → Bytes → Bytes)
    (data key r : Bytes) (hkey : key.length = 32) (hr : r.length = 3)
    (hhmac : ∀ k m, (hmac k m).length = 20)
    (hE : ∀ k b, b.length = 16 → (E k b).length = 16) :
    ∃ encryptedIV ct,
      encrypt E hmac data key r = .ok (encryptedIV ++ ct) ∧
      encryptedIV = ecbEncRaw E key (generateHmacIV hmac data key r) ∧
      ct = (cbcEncBlocks E key (generateHmacIV hmac data key r)
        (toBlocks (pkcs7pad data))).flatten ∧
      encryptedIV.length = 16 ∧
      ct.length % 16 = 0 ∧ data.length < ct.length ∧
      ct.length ≤ data.length + 16 ∧
      ∃ N, 1 ≤ N ∧ ct.length = N * 16 := by
  have hIV : (generateHmacIV hmac data key r).length = 16 :=
    generateHmacIV_length hmac data key r (hhmac _ _) hr
  set IV := generateHmacIV hmac data key r with hIVdef
  refine ⟨ecbEncRaw E key IV,
    (cbcEncBlocks E key IV (toBlocks (pkcs7pad data))).flatten,
    encrypt_eq_ok E hmac data key r hkey hIV, rfl, rfl, ?_, ?_⟩
  · rw [ecbEncRaw_single E key IV hIV]
    exact hE key IV hIV
  · have hpb16 : ∀ b ∈ toBlocks (pkcs7pad data), b.length = 16 :=
      toBlocks_all16 _ (pkcs7pad_length_mod data)
    have hcb16 : ∀ c ∈ cbcEncBlocks E key IV (toBlocks (pkcs7pad data)),
        c.length = 16 :=
      cbcEncBlocks_all16 E key hE _ IV hpb16 hIV
    have hlen : (cbcEncBlocks E key IV (toBlocks (pkcs7pad data))).flatten.length
        = 16 * (data.length / 16 + 1) := by
      rw [flatten_all16_length _ hcb16, cbcEncBlocks_count, toBlocks_length,
        pkcs7pad_length]
      omega
    refine ⟨by omega, by omega, by omega, data.length / 16 + 1, by omega, by omega⟩

/-- Witness for C3 at a concrete input: a 20-byte plaintext under the
identity block cipher and a constant digest. -/
theorem encrypt_frame_layout_witness :
    ∃ encryptedIV ct,
      encrypt (fun _ b => b) (fun _ _ => List.replicate 20 5)
          (List.replicate 20 7) (List.replicate 32 0) [1, 2, 3] =
        .ok (encryptedIV ++ ct) ∧
      encryptedIV = ecbEncRaw (fun _ b => b) (List.replicate 32 0)
        (generateHmacIV (fun _ _ => List.replicate 20 5) (List.replicate 20 7)
          (List.replicate 32 0) [1, 2, 3]) ∧
      ct = (cbcEncBlocks (fun _ b => b) (List.replicate 32 0)
        (generateHmacIV (fun _ _ => List.replicate 20 5) (List.replicate 20 7)
          (List.replicate 32 0) [1, 2, 3])
        (toBlocks (pkcs7pad (List.replicate 20 7)))).flatten ∧
      encryptedIV.length = 16 ∧
      ct.length % 16 = 0 ∧ (List.replicate 20 7 : Bytes).length < ct.length ∧
      ct.length ≤ (List.replicate 20 7 : Bytes).length + 16 ∧
      ∃ N, 1 ≤ N ∧ ct.length = N * 16 :=
  encrypt_frame_layout (fun _ b => b) (fun _ _ => List.replicate 20 5)
    (List.replicate 20 7) (List.replicate 32 0) [1, 2, 3]
    (by decide) (by decide) (fun _ _ => rfl) (fun _ _ h => h)

/-- C4: the IV used by `encrypt` is the first 13 bytes of
`HMAC-SHA1(key[0:16], r ++ p)` concatenated with the 3 random bytes `r`; the
first 16 bytes of the output are the AES-256-ECB encryption (no padding,
full 32-byte key, abstracted by `E`) of that IV, and the remainder is the
AES-256-CBC encryption of `p` under the derived (not the encrypted) IV. -/
theorem encrypt_iv_derivation (E hmac : Bytes → Bytes → Bytes)
    (data key r : Bytes) (hkey : key.length = 32) (hr : r.length = 3)
    (hhmac : ∀ k m, (hmac k m).length = 20)
    (hE : ∀ k b, b.length = 16 → (E k b).length = 16) :
    generateHmacIV hmac data key r =
      (hmac (key.take 16) (r ++ data)).take 13 ++ r ∧
    ∃ out, encrypt E hmac data key r = .ok out ∧
      out.take 16 = E key (generateHmacIV hmac data key r) ∧
      out.drop 16 =
        (cbcEncBlocks E key (generateHmacIV hmac data key r)
          (toBlocks (pkcs7pad data))).flatten := by
  have hIV : (generateHmacIV hmac data key r).length = 16 :=
    generateHmacIV_length hmac data key r (hhmac _ _) hr
  refine ⟨rfl, ecbEncRaw E key (generateHmacIV hmac data key r) ++
    (cbcEncBlocks E key (generateHmacIV hmac data key r)
      (toBlocks (pkcs7pad data))).flatten,
    encrypt_eq_ok E hmac data key r hkey hIV, ?_, ?_⟩
  · have heIV : (ecbEncRaw E key (generateHmacIV hmac data key r)).length = 16 := by
      rw [ecbEncRaw_single E key _ hIV]
      exact hE key _ hIV
    rw [← heIV, List.take_left, ecbEncRaw_single E key _ hIV]
  · have heIV : (ecbEncRaw E key (generateHmacIV hmac data key r)).length = 16 := by
      rw [ecbEncRaw_single E key _ hIV]
      exact hE key _ hIV
    rw [← heIV, List.drop_left]

/-- Witness for C4 at a concrete input. -/
theorem encrypt_iv_derivation_witness :
    generateHmacIV (fun _ _ => List.replicate 20 9) [4, 5] (List.replicate 32 1) [6, 7, 8] =
      ((fun (_ _ : Bytes) => List.replicate 20 9) ((List.replicate 32 1 : Bytes).take 16)
        ([6, 7, 8] ++ [4, 5])).take 13 ++ [6, 7, 8] ∧
    ∃ out, encrypt (fun _ b => b) (fun _ _ => List.replicate 20 9) [4, 5]
        (List.replicate 32 1) [6, 7, 8] = .ok out ∧
      out.take 16 = (fun (_ : Bytes) (b : Bytes) => b) (List.replicate 32 1)
        (generateHmacIV (fun _ _ => List.replicate 20 9) [4, 5] (List.replicate 32 1) [6, 7, 8]) ∧
      out.drop 16 =
        (cbcEncBlocks (fun _ b => b) (List.replicate 32 1)
          (generateHmacIV (fun _ _ => List.replicate 20 9) [4, 5] (List.replicate 32 1) [6, 7, 8])
          (toBlocks (pkcs7pad [4, 5]))).flatten :=
  encrypt_iv_derivation (fun _ b => b) (fun _ _ => List.replicate 20 9) [4, 5]
    (List.replicate 32 1) [6, 7, 8] (by decide) (by decide)
    (fun _ _ => rfl) (fun _ _ h => h)

/-- C6: with a 32-byte key, `decrypt` fails with an error — never returns a
result — on every frame shorter than 16 bytes and on every frame whose
ciphertext portion (the bytes after offset 16) is not a multiple of 16. -/
theorem decrypt_rejects_malformed_frames (D : Bytes → Bytes → Bytes)
    (frame key : Bytes) (hkey : key.length = 32)
    (hbad : frame.length < 16 ∨ (frame.length - 16) % 16 ≠ 0) :
    ∃ e, decrypt D frame key = .error e := by
  rw [decrypt]
  by_cases h1 : (16 ⊓ frame.length) % 16 = 0
  case neg =>
    refine ⟨.wrongFinalBlockLength, ?_⟩
    simp [hkey, h1]
  case pos =>
    by_cases h2 : (ecbDecRaw D key (frame.take 16)).length = 16
    case neg =>
      refine ⟨.invalidIVLength, ?_⟩
      simp [hkey, h1, h2]
    case pos =>
      refine ⟨.wrongFinalBlockLength, ?_⟩
      have hc : ¬(frame.length - 16) % 16 = 0 ∨ frame.length - 16 = 0 := by
        rcases hbad with h | h
        · right
          omega
        · left
          exact h
      simp [hkey, h1, h2, hc]

/-- Witness for C6 at a concrete input: a 3-byte frame is rejected. -/
theorem decrypt_rejects_malformed_frames_witness :
    ∃ e, decrypt (fun _ b => b) [1, 2, 3] (List.replicate 32 0) = .error e :=
  decrypt_rejects_malformed_frames (fun _ b => b) [1, 2, 3]
    (List.replicate 32 0) (by decide) (by decide)

/-- C10: with a 32-byte key, `decrypt` fails on a frame of exactly 16 bytes
(empty ciphertext portion): CBC decryption with padding needs at least one
ciphertext block, so an empty buffer is never returned. -/
theorem decrypt_rejects_empty_ciphertext (D : Bytes → Bytes → Bytes)
    (frame key : Bytes) (hkey : key.length = 32)
    (hframe : frame.length = 16) :
    ∃ e, decrypt D frame key = .error e := by
  rw [decrypt]
  have h1 : (16 ⊓ frame.length) % 16 = 0 := by omega
  by_cases h2 : (ecbDecRaw D key (frame.take 16)).length = 16
  case pos =>
    refine ⟨.wrongFinalBlockLength, ?_⟩
    simp [hkey, h1, h2, hframe]
  case neg =>
    refine ⟨.invalidIVLength, ?_⟩
    simp [hkey, h1, h2]

/-- Witness for C10 at a concrete input: a 16-byte frame is rejected. -/
theorem decrypt_rejects_empty_ciphertext_witness :
    ∃ e, decrypt (fun _ b => b) (List.replicate 16 7) (List.replicate 32 0) =
      .error e :=
  decrypt_rejects_empty_ciphertext (fun _ b => b) (List.replicate 16 7)
    (List.replicate 32 0) (by decide) (by decide)

/-- C5: for a 16-byte nonce, `genSessionKey` returns a `SessionKey` whose
`plain` field is exactly 32 bytes and whose `encrypted` field is exactly
128 bytes, given the contracts of `node:crypto`'s `randomBytes(32)` (the
32-byte `rand32`) and of RSA encryption under the fixed 1024-bit key (the
128-byte output of `rsaSys`). -/
theorem genSessionKey_lengths (rsaSys : Bytes → Bytes) (rand32 nonce : Bytes)
    (hrand : rand32.length = 32) (hnonce : nonce.length = 16)
    (hrsa : ∀ m, (rsaSys m).length = 128) :
    ∃ sk, genSessionKey rsaSys rand32 nonce = .ok sk ∧
      sk.plain.length = 32 ∧ sk.encrypted.length = 128 := by
  have hle : (rand32 ++ nonce).length ≤ 86 := by
    simp [hrand, hnonce]
  refine ⟨⟨rand32, rsaSys (rand32 ++ nonce)⟩, ?_, hrand, hrsa _⟩
  rw [genSessionKey, publicEncryptDefault, if_pos hle]

/-- Witness for C5 at a concrete input. -/
theorem genSessionKey_lengths_witness :
    ∃ sk, genSessionKey (fun _ => List.replicate 128 9) (List.replicate 32 1)
        (List.replicate 16 2) = .ok sk ∧
      sk.plain.length = 32 ∧ sk.encrypted.length = 128 :=
  genSessionKey_lengths (fun _ => List.replicate 128 9) (List.replicate 32 1)
    (List.replicate 16 2) (by decide) (by decide) (fun _ => rfl)

/-- C8: `genSessionKey` never validates the nonce length: whenever
`32 + nonce.length` fits the RSA-OAEP limit of the fixed 1024-bit key
(at most 86 bytes in total), the call returns normally with a 32-byte
`plain` and a 128-byte `encrypted`, whether or not the nonce is 16 bytes. -/
theorem genSessionKey_no_nonce_validation (rsaSys : Bytes → Bytes)
    (rand32 nonce : Bytes) (hrand : rand32.length = 32)
    (hrsa : ∀ m, (rsaSys m).length = 128)
    (hfit : 32 + nonce.length ≤ 86) :
    ∃ sk, genSessionKey rsaSys rand32 nonce = .ok sk ∧
      sk.plain.length = 32 ∧ sk.encrypted.length = 128 := by
  have hle : (rand32 ++ nonce).length ≤ 86 := by
    simp [hrand]
    omega
  refine ⟨⟨rand32, rsaSys (rand32 ++ nonce)⟩, ?_, hrand, hrsa _⟩
  rw [genSessionKey, publicEncryptDefault, if_pos hle]

/-- Witness for C8 at a concrete input: a 5-byte nonce (not 16 bytes) is
accepted without any validation error. -/
theorem genSessionKey_no_nonce_validation_witness :
    ∃ sk, genSessionKey (fun _ => List.replicate 128 4) (List.replicate 32 3)
        [1, 2, 3, 4, 5] = .ok sk ∧
      sk.plain.length = 32 ∧ sk.encrypted.length = 128 :=
  genSessionKey_no_nonce_validation (fun _ => List.replicate 128 4)
    (List.replicate 32 3) [1, 2, 3, 4, 5] (by decide) (fun _ => rfl) (by decide)

set_option maxRecDepth 4000 in
/-- C2: `crc32` matches the reflected CRC32 (polynomial `0xEDB88320`, seed
`0xFFFFFFFF`, final complement) reference vectors: the empty buffer gives
`0x00000000`, the ASCII bytes of "123456789" give `0xCBF43926`, and the
ASCII bytes of "The quick brown fox jumps over the lazy dog" give
`0x414FA339`. -/
theorem crc32_reference_vectors :
    crc32 [] = 0x00000000 ∧
    crc32 (asciiBytes "123456789") = 0xCBF43926 ∧
    crc32 (asciiBytes "The quick brown fox jumps over the lazy dog") =
      0x414FA339 :=
  ⟨by decide, by decide, by decide⟩

set_option maxRecDepth 2000 in
/-- Every entry of the CRC32 table fits in 32 bits. -/
theorem crc32Table_entries_lt : ∀ x ∈ crc32Table, x < 2 ^ 32 := by decide

/-- A `getD` lookup in a 32-bit-bounded table with a 32-bit-bounded default
stays 32-bit-bounded. -/
theorem getD_lt_of_all_lt (l : List Nat) (i d : Nat) (hd : d < 2 ^ 32)
    (hl : ∀ x ∈ l, x < 2 ^ 32) : l.getD i d < 2 ^ 32 := by
  rcases h : l[i]? with _ | x
  · simp only [List.getD_eq_getElem?_getD, h, Option.getD_none]
    exact hd
  · rw [List.getD_eq_getElem?_getD, h]
    exact hl x (List.getElem?_mem h)

/-- The CRC running value stays below `2 ^ 32` through the fold. -/
theorem foldl_crc32Update_lt (buffer : Bytes) :
    ∀ acc, acc < 2 ^ 32 → buffer.foldl crc32Update acc < 2 ^ 32 := by
  induction buffer with
  | nil => exact fun _ h => h
  | cons b bs ih =>
    intro acc hacc
    rw [List.foldl_cons]
    refine ih _ ?_
    rw [crc32Update]
    exact Nat.xor_lt_two_pow
      (getD_lt_of_all_lt _ _ _ (by omega) crc32Table_entries_lt)
      (by omega)

/-- C9: `crc32` is total — every lookup index `(crc ^ byte) & 0xFF` lies
within the bounds of the 256-entry table, and for every input buffer the
returned value is below `2 ^ 32`. -/
theorem crc32_total_and_bounded :
    (∀ crc b, (crc ^^^ b) % 256 < crc32Table.length) ∧
    ∀ buffer : Bytes, crc32 buffer < 2 ^ 32 := by
  constructor
  · intro crc b
    have : crc32Table.length = 256 := by
      rw [crc32Table, List.length_map, List.length_range]
    rw [this]
    exact Nat.mod_lt _ (by omega)
  · intro buffer
    rw [crc32]
    exact Nat.xor_lt_two_pow (by omega)
      (foldl_crc32Update_lt buffer 0xffffffff (by omega))

/-! ## Lemmas on lenient hex decoding and modulus sizing -/

theorem hexDigitVal_lt {c : Char} {v : Nat} (h : hexDigitVal c = some v) :
    v < 16 := by
  rw [hexDigitVal] at h
  split_ifs at h <;> simp_all <;> omega

theorem nodeHexDecodeAux_lt : ∀ cs : List Char, ∀ x ∈ nodeHexDecodeAux cs,
    x < 256
  | [] => by simp [nodeHexDecodeAux]
  | [_] => by simp [nodeHexDecodeAux]
  | c1 :: c2 :: rest => by
    rw [nodeHexDecodeAux]
    rcases h1 : hexDigitVal c1 with _ | hi
    · simp
    rcases h2 : hexDigitVal c2 with _ | lo
    · simp
    simp only [List.mem_cons]
    rintro x (rfl | hx)
    · have := hexDigitVal_lt h1
      have := hexDigitVal_lt h2
      omega
    · exact nodeHexDecodeAux_lt rest x hx

theorem nodeHexDecode_lt (s : String) : ∀ x ∈ nodeHexDecode s, x < 256 :=
  nodeHexDecodeAux_lt s.data

theorem natBytesLenAux_congr (n : Nat) : ∀ f g, n ≤ f → n ≤ g →
    natBytesLenAux f n = natBytesLenAux g n := by
  induction n using Nat.strong_induction_on with
  | _ n ih =>
    intro f g hf hg
    match f, g with
    | 0, 0 => rfl
    | 0, g + 1 =>
      have h0 : n = 0 := by omega
      subst h0
      simp [natBytesLenAux]
    | f + 1, 0 =>
      have h0 : n = 0 := by omega
      subst h0
      simp [natBytesLenAux]
    | f + 1, g + 1 =>
      by_cases h0 : n = 0
      · subst h0
        simp [natBytesLenAux]
      · simp only [natBytesLenAux, if_neg h0]
        congr 1
        exact ih (n / 256) (by omega) f g (by omega) (by omega)

theorem natBytesLen_eq (n : Nat) (h0 : n ≠ 0) :
    natBytesLen n = natBytesLen (n / 256) + 1 := by
  obtain ⟨m, rfl⟩ : ∃ m, n = m + 1 := ⟨n - 1, by omega⟩
  rw [natBytesLen, natBytesLen]
  simp only [natBytesLenAux, if_neg h0]
  congr 1
  exact natBytesLenAux_congr ((m + 1) / 256) m ((m + 1) / 256) (by omega) le_rfl

theorem natBytesLen_foldl : ∀ (l : Bytes) (a : Nat), (∀ x ∈ l, x < 256) →
    a ≠ 0 →
    natBytesLen (l.foldl (fun acc b => acc * 256 + b) a) =
      natBytesLen a + l.length
  | [], a, _, _ => by simp
  | x :: l, a, hl, ha => by
    rw [List.foldl_cons,
      natBytesLen_foldl l (a * 256 + x) (fun y hy => hl y (by simp [hy]))
        (by have := Nat.pos_of_ne_zero ha; omega)]
    have hstep : natBytesLen (a * 256 + x) = natBytesLen a + 1 := by
      rw [natBytesLen_eq _ (by have := Nat.pos_of_ne_zero ha; omega)]
      have hx : x < 256 := hl x (by simp)
      have : (a * 256 + x) / 256 = a := by omega
      rw [this]
    rw [hstep]
    simp
    omega

/-- The byte length of a big-endian integer with a nonzero leading byte is
the byte-string length. -/
theorem natBytesLen_bytesToNat (b0 : Nat) (rest : Bytes) (hb0 : b0 ≠ 0)
    (hb0' : b0 < 256) (hrest : ∀ x ∈ rest, x < 256) :
    natBytesLen (bytesToNat (b0 :: rest)) = rest.length + 1 := by
  rw [bytesToNat, List.foldl_cons,
    natBytesLen_foldl rest (0 * 256 + b0) hrest (by omega)]
  have h1 : natBytesLen (0 * 256 + b0) = 1 := by
    rw [natBytesLen_eq _ (by omega)]
    have : (0 * 256 + b0) / 256 = 0 := Nat.div_eq_of_lt (by omega)
    rw [this]
    rfl
  omega

set_option maxRecDepth 8000 in
/-- C7 counterexample: a modulus hex string that is malformed in both the
ways the claim names — it contains the non-hex character `g` and has odd
length (129) — is decoded leniently by `Buffer.from(_, "hex")` to the 64
usable bytes before the invalid character, and `rsaEncrypt` returns a
ciphertext instead of failing with an input-validation error. -/
theorem rsaEncrypt_malformed_hex_accepted :
    (rsaEncrypt (List.replicate 50 1) "a"
      (String.mk (List.replicate 128 'f') ++ "g") "010001").isOk = true := by
  decide

/-- C7 (amended): `rsaEncrypt` never rejects malformed hex as such —
`Buffer.from(_, "hex")` silently truncates at the first invalid pair or odd
trailing digit — and it returns a ciphertext whenever the leniently decoded
key material passes the library's actual key checks: a nonempty decoded
modulus with nonzero leading byte and at most 16384 bits, a nonempty decoded
exponent strictly smaller than the modulus (and of at most 64 bits when the
modulus exceeds 3072 bits), and a modulus at least 11 bytes longer than the
UTF-8 password. -/
theorem rsaEncrypt_lenient_hex (padPS : Bytes)
    (password publicKeyMod publicKeyExp : String) (b0 : Nat) (rest : Bytes)
    (hmod : nodeHexDecode publicKeyMod = b0 :: rest) (hb0 : b0 ≠ 0)
    (hexp : nodeHexDecode publicKeyExp ≠ [])
    (hn : natBitsLen (bytesToNat (nodeHexDecode publicKeyMod)) ≤ 16384)
    (he : bytesToNat (nodeHexDecode publicKeyExp) <
      bytesToNat (nodeHexDecode publicKeyMod))
    (hsmall : natBitsLen (bytesToNat (nodeHexDecode publicKeyMod)) ≤ 3072 ∨
      natBitsLen (bytesToNat (nodeHexDecode publicKeyExp)) ≤ 64)
    (hfit : (utf8Bytes password).length + 11 ≤ rest.length + 1) :
    ∃ s, rsaEncrypt padPS password publicKeyMod publicKeyExp = .ok s := by
  simp only [rsaEncrypt]
  have hne : ¬(nodeHexDecode publicKeyMod = [] ∨
      nodeHexDecode publicKeyExp = []) := by
    simp [hmod, hexp]
  rw [if_neg hne, if_neg (Nat.not_lt.mpr hn), if_neg (Nat.not_le.mpr he)]
  rw [if_neg (show ¬(3072 < natBitsLen (bytesToNat (nodeHexDecode publicKeyMod)) ∧
      64 < natBitsLen (bytesToNat (nodeHexDecode publicKeyExp))) by
    rcases hsmall with h | h
    · exact fun hc => absurd hc.1 (Nat.not_lt.mpr h)
    · exact fun hc => absurd hc.2 (Nat.not_lt.mpr h))]
  have hb0' : b0 < 256 := nodeHexDecode_lt publicKeyMod b0 (by rw [hmod]; simp)
  have hrest : ∀ x ∈ rest, x < 256 := fun x hx =>
    nodeHexDecode_lt publicKeyMod x (by rw [hmod]; simp [hx])
  have hk : natBytesLen (bytesToNat (nodeHexDecode publicKeyMod)) =
      rest.length + 1 := by
    rw [hmod]
    exact natBytesLen_bytesToNat b0 rest hb0 hb0' hrest
  rw [if_neg (by rw [hk]; omega)]
  exact ⟨_, rfl⟩

/-- Witness for the amended C7 at a concrete input: a modulus hex string of
odd length ending in the non-hex character `g` still yields a ciphertext
(the decoded key passes every OpenSSL key check). -/
theorem rsaEncrypt_lenient_hex_witness :
    ∃ s, rsaEncrypt [1, 1, 1, 1, 1, 1, 1, 1] "a" "ff00000000000000000000abg"
      "010001" = .ok s :=
  rsaEncrypt_lenient_hex [1, 1, 1, 1, 1, 1, 1, 1] "a"
    "ff00000000000000000000abg" "010001" 255
    [0, 0, 0, 0, 0, 0, 0, 0, 0, 0, 171]
    (by decide) (by decide) (by decide) (by decide) (by decide)
    (Or.inl (by decide)) (by decide)
